import Mathlib

/-!
String scanning in simdjson (stage 1) and the haswell backslash/quote finder

A shallow embedding of

* `src/generic/stage1/json_string_scanner.h` (`json_string_scanner`), and
* `include/simdjson/haswell/stringparsing_defs.h` (`backslash_and_quote`).

Bitmasks (`uint64_t`, `uint32_t`) are natural numbers; bit `i` of a mask is
`Nat.testBit m i`, and wrap-around is written out with `% 2 ^ 64` / `% 2 ^ 32`.
Member functions that mutate `this` return the new object next to their result.

The helpers of `bitmask::`, the escape scanner, the `simd8` register and the
`error_code` enumeration are declared in headers that are not part of the two
files above; their models follow the prose description of the component and are
marked as such.
-/

/-! ## Bitmask primitives -/

/-- The mask whose bit `i` (for `i < n`) is `f i`, all higher bits clear. -/
def bits_to_mask (f : Nat → Bool) : Nat → Nat
  | 0 => 0
  | n + 1 => bits_to_mask f n + (if f n then 2 ^ n else 0)

/-- Bitwise complement of a 64-bit word (`~x` on `uint64_t`). -/
def not64 (x : Nat) : Nat := (2 ^ 64 - 1) ^^^ x

/-- XOR-parity of bits `0..i` (inclusive) of `m`. -/
def parity_upto (m : Nat) : Nat → Bool
  | 0 => m.testBit 0
  | i + 1 => xor (parity_upto m i) (m.testBit (i + 1))

namespace bitmask

/-- Modelled from the spec: `bitmask::prefix_xor` is declared in `bitmask.h`,
which is not among the sources. "Returns a mask where bit *i* is the XOR-parity
of bits 0..i of the input (a running toggle scan)", over a 64-bit word. -/
def prefix_xor (bitmask : Nat) : Nat := bits_to_mask (parity_upto bitmask) 64

/-- Modelled from the spec: `bitmask::subtract_borrow` is declared in
`bitmask.h`, which is not among the sources. "Performs
`minuend - subtrahend - carry_in` over the block-width unsigned integer, returns
the result, and updates `carry_in_out` to the borrow-out (1 if the subtraction
underflowed, else 0)". The first component is the returned word, the second the
value left in the `borrow_t&` argument. -/
def subtract_borrow (minuend subtrahend borrow : Nat) : Nat × Nat :=
  ((2 ^ 64 + minuend - (subtrahend + borrow)) % 2 ^ 64,
   if minuend < subtrahend + borrow then 1 else 0)

/-- Search for the lowest set bit of `m` at positions `i, i+1, ..`, looking at
`fuel` positions at most. -/
def lowest_set_from (m : Nat) : Nat → Nat → Nat
  | 0, i => i
  | fuel + 1, i => if m.testBit i then i else lowest_set_from m fuel (i + 1)

/-- Modelled from the spec: `bitmask::trailing_zeroes` is declared in
`bitmask.h`, which is not among the sources. "Returns the 0-based index of the
lowest set bit; undefined/unused when mask is zero". The argument is a 64-bit
word; on the zero word this model returns 64, a value no caller may rely on. -/
def trailing_zeroes (input_num : Nat) : Nat := lowest_set_from input_num 64 0

end bitmask

/-! ## Escape scanner -/

/-- Parity of the backslash run that ends right before position `i` of the
block, the run being extended to the left by the carried parity `carry`:
`true` when that run has odd length. -/
def odd_run_before (backslash : Nat) (carry : Bool) : Nat → Bool
  | 0 => carry
  | i + 1 => if backslash.testBit i then !(odd_run_before backslash carry i) else false

/-- Modelled from the spec: `json_escape_scanner` is declared in
`generic/stage1/json_escape_scanner.h`, which is not among the sources. Its only
state is the escape parity carry: "whether an in-progress backslash run ends at
the block boundary with odd parity". -/
structure json_escape_scanner where
  escape_parity_carry : Bool
deriving DecidableEq, Repr

/-- Modelled from the spec: `json_escape_scanner::next` is declared in
`generic/stage1/json_escape_scanner.h`, which is not among the sources. "A
backslash run of length *k* escapes its following byte iff *k* is odd"; the
carried parity is "an implicit backslash immediately before the block"; the
escaped mask holds "for every maximal run of consecutive set bits in the
backslash mask (extended by the carry), the positions one past the end of
odd-length runs". Returns the `escaped` mask and the scanner with its carry
updated. -/
def json_escape_scanner.next (self : json_escape_scanner) (backslash : Nat) :
    Nat × json_escape_scanner :=
  (bits_to_mask
      (fun i => !backslash.testBit i && odd_run_before backslash self.escape_parity_carry i) 64,
   { escape_parity_carry := odd_run_before backslash self.escape_parity_carry 64 })

/-! ## String scanner -/

/-- Modelled from the spec: the `error_code` enumeration is declared in
`simdjson/error.h`, which is not among the sources. `SUCCESS` and
`UNCLOSED_STRING` are the two enumerators the scanner names ("status is either
success or an unclosed string signal"); `OTHER n` stands for every remaining
enumerator. -/
inductive error_code where
  | SUCCESS
  | UNCLOSED_STRING
  | OTHER (n : Nat)
deriving DecidableEq, Repr

/-- The fields of `class json_string_scanner`: the escape scanner and the
borrow `still_in_string`, both zero-initialised. -/
structure json_string_scanner where
  escape_scanner : json_escape_scanner
  still_in_string : Nat
deriving DecidableEq, Repr

namespace json_string_scanner

/-- A freshly constructed scanner: `escape_scanner{}` and `still_in_string = 0ULL`. -/
def fresh : json_string_scanner :=
  { escape_scanner := { escape_parity_carry := false }, still_in_string := 0 }

/-- `json_string_scanner::next_unescaped_quotes`: `raw_quote & ~escaped`, the
escape scanner being advanced by one block. -/
def next_unescaped_quotes (self : json_string_scanner) (backslash raw_quote : Nat) :
    Nat × json_string_scanner :=
  let r := self.escape_scanner.next backslash
  let escaped := r.1
  (raw_quote &&& not64 escaped, { self with escape_scanner := r.2 })

/-- `json_string_scanner::next_in_string`, statement by statement. -/
def next_in_string (self : json_string_scanner) (quote separated_values : Nat) :
    Nat × json_string_scanner :=
  let lead_quote := quote &&& separated_values
  let trailing_quote := quote &&& not64 separated_values
  let was_still_in_string := self.still_in_string
  let r := bitmask.subtract_borrow trailing_quote lead_quote self.still_in_string
  let in_string := r.1
  let self1 := { self with still_in_string := r.2 }
  let lead_quote_in_string := lead_quote &&& not64 in_string
  if lead_quote_in_string = 0 then
    let self2 := { self1 with still_in_string := was_still_in_string }
    let in_string2 := bitmask.prefix_xor (quote ^^^ self2.still_in_string)
    (in_string2, { self2 with still_in_string := in_string2 >>> 63 })
  else
    (in_string, self1)

/-- `json_string_scanner::next`: unescaped quotes, then the in-string mask. -/
def next (self : json_string_scanner) (backslash raw_quote separated_values : Nat) :
    Nat × json_string_scanner :=
  let r := self.next_unescaped_quotes backslash raw_quote
  let quote := r.1
  r.2.next_in_string quote separated_values

/-- `json_string_scanner::finish`, a `const` member: it reads the scanner and
returns a status, so the scanner it was called on is the scanner afterwards. -/
def finish (self : json_string_scanner) : error_code :=
  if self.still_in_string ≠ 0 then error_code.UNCLOSED_STRING else error_code.SUCCESS

/-- Feed the blocks `(quote, separated_values)` in order to `next_in_string`;
the scanner after the last block. -/
def feed_in_string (self : json_string_scanner) : List (Nat × Nat) → json_string_scanner
  | [] => self
  | b :: rest => feed_in_string (self.next_in_string b.1 b.2).2 rest

/-- Feed the blocks `(backslash, raw_quote)` in order to `next_unescaped_quotes`;
the masks returned, in order. -/
def feed_unescaped_quotes (self : json_string_scanner) : List (Nat × Nat) → List Nat
  | [] => []
  | b :: rest =>
    (self.next_unescaped_quotes b.1 b.2).1 ::
      feed_unescaped_quotes (self.next_unescaped_quotes b.1 b.2).2 rest

end json_string_scanner

/-! ## Reference notions used to state the properties -/

/-- The in-string mask named by the parity reading of a block: bit `i` (for
`i < 64`) is `c` XOR the parity of bits `0..i` of `q`. -/
def parity_reference (c q : Nat) : Nat :=
  bits_to_mask (fun i => xor (decide (c = 1)) (parity_upto q i)) 64

/-- Number of set bits among the low 64 bits of a mask. -/
def popcount64 (m : Nat) : Nat := ((List.range 64).filter (fun i => m.testBit i)).length

/-- Total number of set quote bits over a sequence of blocks `(quote, separators)`. -/
def total_quotes (blocks : List (Nat × Nat)) : Nat :=
  (blocks.map (fun b => popcount64 b.1)).sum

/-- The quotes of a block that open a string, given the carry-in `c`: the quote
positions at which the running parity is "inside". -/
def opening_quotes (c q : Nat) : Nat := q &&& bitmask.prefix_xor (q ^^^ c)

/-- The quotes of a block that close a string, given the carry-in `c`. -/
def closing_quotes (c q : Nat) : Nat := q &&& not64 (bitmask.prefix_xor (q ^^^ c))

/-- The fast-path assumption on a block: the lead quotes `q & s` are exactly the
opening quotes and the trailing quotes `q & ~s` exactly the closing quotes. -/
def fast_path_assumption (c q s : Nat) : Prop :=
  q &&& s = opening_quotes c q ∧ q &&& not64 s = closing_quotes c q

instance (c q s : Nat) : Decidable (fast_path_assumption c q s) := by
  unfold fast_path_assumption; infer_instance

/-- The fast-path assumption is violated in a block: some closing quote lies in
the separator mask, or some opening quote does not. -/
def fast_path_violated (c q s : Nat) : Prop :=
  closing_quotes c q &&& s ≠ 0 ∨ opening_quotes c q &&& not64 s ≠ 0

instance (c q s : Nat) : Decidable (fast_path_violated c q s) := by
  unfold fast_path_violated; infer_instance

/-- Position `p` is the lowest set bit of the mask `m`. -/
def is_lowest_set_bit (m p : Nat) : Prop :=
  m.testBit p = true ∧ ∀ j, j < p → m.testBit j = false

instance (m p : Nat) : Decidable (is_lowest_set_bit m p) := by
  unfold is_lowest_set_bit; infer_instance

/-! ## Byte classifier (haswell) -/

/-- Byte-addressed memory: the byte stored at each address. -/
abbrev memory := Nat → Nat

/-- Modelled from the spec: `simd8<uint8_t>` is declared in
`simdjson/haswell/simd.h`, which is not among the sources. A register of
`BYTES_PROCESSED = 32` byte lanes, lane `i` being the byte at offset `i` of the
block it was loaded from. -/
abbrev simd8 := List Nat

namespace simd8

/-- Modelled from the spec: the constructor `simd8<uint8_t> v(src)` is declared
in `simdjson/haswell/simd.h`, which is not among the sources. It reads the 32
bytes of the block that starts at `src`. -/
def load (mem : memory) (src : Nat) : simd8 := (List.range 32).map (fun i => mem (src + i))

/-- Modelled from the spec: `simd8::store` is declared in
`simdjson/haswell/simd.h`, which is not among the sources. It writes the 32
lanes to the 32 bytes that start at `dst`. -/
def store (v : simd8) (mem : memory) (dst : Nat) : memory :=
  fun a => if dst ≤ a ∧ a < dst + 32 then v.getD (a - dst) 0 else mem a

/-- Modelled from the spec: `(v == c).to_bitmask()` is declared in
`simdjson/haswell/simd.h`, which is not among the sources. "Bit set at position
*i* iff source byte *i* equals" the byte `c`. -/
def eq_bitmask (v : simd8) (c : Nat) : Nat := bits_to_mask (fun i => v.getD i 0 == c) 32

end simd8

/-- The fields of `struct backslash_and_quote`, both `uint32_t`. -/
structure backslash_and_quote where
  bs_bits : Nat
  quote_bits : Nat
deriving DecidableEq, Repr

namespace backslash_and_quote

/-- `BYTES_PROCESSED`. -/
def BYTES_PROCESSED : Nat := 32

/-- `backslash_and_quote::copy_and_find`: load the block, store it to `dst`
unconditionally, and return the backslash and quote masks (each cast to
`uint32_t`) next to the memory after the store. -/
def copy_and_find (mem : memory) (src dst : Nat) : backslash_and_quote × memory :=
  let v := simd8.load mem src
  let mem1 := v.store mem dst
  ({ bs_bits := v.eq_bitmask 0x5C % 2 ^ 32, quote_bits := v.eq_bitmask 0x22 % 2 ^ 32 }, mem1)

/-- `has_quote_first()`: `((bs_bits - 1) & quote_bits) != 0` in `uint32_t` arithmetic. -/
def has_quote_first (self : backslash_and_quote) : Bool :=
  ((self.bs_bits + 2 ^ 32 - 1) % 2 ^ 32) &&& self.quote_bits != 0

/-- `has_backslash()`: `((quote_bits - 1) & bs_bits) != 0` in `uint32_t` arithmetic. -/
def has_backslash (self : backslash_and_quote) : Bool :=
  ((self.quote_bits + 2 ^ 32 - 1) % 2 ^ 32) &&& self.bs_bits != 0

/-- `quote_index()`. -/
def quote_index (self : backslash_and_quote) : Nat := bitmask.trailing_zeroes self.quote_bits

/-- `backslash_index()`. -/
def backslash_index (self : backslash_and_quote) : Nat := bitmask.trailing_zeroes self.bs_bits

end backslash_and_quote

/-! ## Synthetic buffers -/

/-- The 64-bit mask of block `b` for a per-position predicate on a buffer:
bit `i` is the predicate at position `64 * b + i`. -/
def block_mask (p : Nat → Bool) (b : Nat) : Nat := bits_to_mask (fun i => p (64 * b + i)) 64

/-- The blocks `(backslash mask, raw quote mask)` of the buffer made of `k`
backslashes followed by one quote (positions past the quote are padding that is
neither): `k / 64 + 1` blocks of 64 positions. -/
def backslash_run_blocks (k : Nat) : List (Nat × Nat) :=
  (List.range (k / 64 + 1)).map
    (fun b => (block_mask (fun j => decide (j < k)) b, block_mask (fun j => decide (j = k)) b))

/-! ## Notions for the branch taken by `next_in_string` -/

/-- The word `lead_quote_in_string` that `next_in_string` computes right before
its `if`: `lead_quote & ~in_string`, where `in_string` is the word returned by
`subtract_borrow`. The prefix-XOR branch is entered exactly when it is zero. -/
def json_string_scanner.lead_quote_in_string (self : json_string_scanner)
    (quote separated_values : Nat) : Nat :=
  let lead_quote := quote &&& separated_values
  let trailing_quote := quote &&& not64 separated_values
  let r := bitmask.subtract_borrow trailing_quote lead_quote self.still_in_string
  lead_quote &&& not64 r.1

/-- The 64-bit word with every bit equal to the carry `c`: all ones when `c` is
non-zero, zero otherwise. -/
def broadcast (c : Nat) : Nat := if c = 0 then 0 else 2 ^ 64 - 1

/-- The carry named by the parity reading of a block: `c` XOR the parity of all
64 bits of `q`. -/
def carry_reference (c q : Nat) : Nat := (xor (decide (c = 1)) (parity_upto q 63)).toNat

/-- Number of set bits among the bits `0..i` (inclusive) of a mask. -/
def count_upto (m i : Nat) : Nat := ((List.range (i + 1)).filter (fun j => m.testBit j)).length

/-! ## Lemmas on masks -/

theorem bits_to_mask_lt (f : Nat → Bool) (n : Nat) : bits_to_mask f n < 2 ^ n := by
  induction n with
  | zero => simp [bits_to_mask]
  | succ n ih =>
    simp only [bits_to_mask]
    have h2 : 2 ^ (n + 1) = 2 ^ n + 2 ^ n := by ring
    split <;> omega

theorem testBit_bits_to_mask (f : Nat → Bool) (n i : Nat) :
    (bits_to_mask f n).testBit i = (decide (i < n) && f i) := by
  induction n with
  | zero => simp [bits_to_mask]
  | succ n ih =>
    have hlt := bits_to_mask_lt f n
    simp only [bits_to_mask]
    rcases Nat.lt_trichotomy i n with h | h | h
    · have e : bits_to_mask f n + (if f n then 2 ^ n else 0)
          = (if f n then 2 ^ n + bits_to_mask f n else bits_to_mask f n) := by
        split <;> omega
      rw [e]
      split
      · rw [Nat.testBit_two_pow_add_gt h, ih]; simp [h, Nat.lt_succ_of_lt h]
      · rw [ih]; simp [h, Nat.lt_succ_of_lt h]
    · subst h
      by_cases hf : f i
      · simp only [hf, if_true]
        rw [Nat.add_comm, Nat.testBit_two_pow_add_eq, Nat.testBit_lt_two_pow hlt]; simp
      · simp only [hf, Bool.false_eq_true, if_false, Nat.add_zero]
        rw [Nat.testBit_lt_two_pow hlt]; simp
    · have hlt2 : bits_to_mask f n + (if f n then 2 ^ n else 0) < 2 ^ i := by
        have := bits_to_mask_lt f (n + 1)
        simp only [bits_to_mask] at this
        exact lt_of_lt_of_le this (Nat.pow_le_pow_right (by decide) h)
      rw [Nat.testBit_lt_two_pow hlt2]
      have : ¬ i < n + 1 := by omega
      simp [this]

theorem testBit_not64 (x i : Nat) : (not64 x).testBit i = xor (decide (i < 64)) (x.testBit i) := by
  unfold not64
  rw [Nat.testBit_xor, Nat.testBit_two_pow_sub_one]

theorem prefix_xor_lt (m : Nat) : bitmask.prefix_xor m < 2 ^ 64 :=
  bits_to_mask_lt _ 64

theorem testBit_prefix_xor (m i : Nat) :
    (bitmask.prefix_xor m).testBit i = (decide (i < 64) && parity_upto m i) :=
  testBit_bits_to_mask _ 64 i

theorem testBit_carry (c : Nat) (hc : c ≤ 1) (i : Nat) :
    c.testBit i = (decide (i = 0) && decide (c = 1)) := by
  have h : c = 0 ∨ c = 1 := by omega
  rcases h with h | h <;> subst h
  · simp
  · cases i with
    | zero => simp
    | succ i => simp [Nat.testBit_succ]

theorem parity_upto_xor_carry (q c : Nat) (hc : c ≤ 1) (i : Nat) :
    parity_upto (q ^^^ c) i = xor (decide (c = 1)) (parity_upto q i) := by
  induction i with
  | zero =>
    simp only [parity_upto, Nat.testBit_xor, testBit_carry c hc]
    cases q.testBit 0 <;> cases decide (c = 1) <;> simp
  | succ i ih =>
    simp only [parity_upto, Nat.testBit_xor, testBit_carry c hc, ih]
    cases q.testBit (i + 1) <;> cases decide (c = 1) <;> cases parity_upto q i <;> simp

theorem prefix_xor_carry_eq_reference (q c : Nat) (hc : c ≤ 1) :
    bitmask.prefix_xor (q ^^^ c) = parity_reference c q := by
  unfold bitmask.prefix_xor parity_reference
  congr 1
  funext i
  exact parity_upto_xor_carry q c hc i

/-- The in-string state right before position `n` of a block: the carry-in at
position 0, the running parity at the previous position afterwards. -/
theorem in_string_step (q : Nat) (cb : Bool) (n : Nat) :
    xor cb (parity_upto q n)
      = xor (match n with | 0 => cb | k + 1 => xor cb (parity_upto q k)) (q.testBit n) := by
  cases n with
  | zero => simp [parity_upto]
  | succ k => simp [parity_upto]

/-- Subtraction identity behind the fast path, on the low `n` bits: with `R` the
running in-string parity, `R + (q ∧ R) + carry = (q ∧ ¬R) + 2^n * (state before n)`. -/
theorem borrow_chain (q : Nat) (cb : Bool) (n : Nat) :
    bits_to_mask (fun i => xor cb (parity_upto q i)) n
      + bits_to_mask (fun i => q.testBit i && xor cb (parity_upto q i)) n + cb.toNat
    = bits_to_mask (fun i => q.testBit i && !(xor cb (parity_upto q i))) n
      + 2 ^ n * (match n with | 0 => cb | k + 1 => xor cb (parity_upto q k)).toNat := by
  induction n with
  | zero => simp [bits_to_mask]
  | succ n ih =>
    simp only [bits_to_mask]
    have hstep := in_string_step q cb n
    have h2 : 2 ^ (n + 1) = 2 * 2 ^ n := by ring
    rw [h2]
    generalize (match n with | 0 => cb | k + 1 => xor cb (parity_upto q k)) = prev at ih hstep
    simp only [hstep]
    cases prev <;> cases q.testBit n <;> simp at ih ⊢ <;> omega

theorem and_eq_bits_to_mask (q r : Nat) (f : Nat → Bool) (hq : q < 2 ^ 64)
    (hr : ∀ i, i < 64 → r.testBit i = f i) :
    q &&& r = bits_to_mask (fun i => q.testBit i && f i) 64 := by
  apply Nat.eq_of_testBit_eq
  intro i
  rw [Nat.testBit_and, testBit_bits_to_mask]
  by_cases hi : i < 64
  · simp [hi, hr i hi]
  · have : q.testBit i = false :=
      Nat.testBit_lt_two_pow (lt_of_lt_of_le hq (Nat.pow_le_pow_right (by decide) (by omega)))
    simp [hi, this]

theorem opening_quotes_eq (c q : Nat) (hc : c ≤ 1) (hq : q < 2 ^ 64) :
    opening_quotes c q
      = bits_to_mask (fun i => q.testBit i && xor (decide (c = 1)) (parity_upto q i)) 64 := by
  unfold opening_quotes
  apply and_eq_bits_to_mask q _ _ hq
  intro i hi
  rw [testBit_prefix_xor, parity_upto_xor_carry q c hc]; simp [hi]

theorem closing_quotes_eq (c q : Nat) (hc : c ≤ 1) (hq : q < 2 ^ 64) :
    closing_quotes c q
      = bits_to_mask (fun i => q.testBit i && !(xor (decide (c = 1)) (parity_upto q i))) 64 := by
  unfold closing_quotes
  apply and_eq_bits_to_mask q _ _ hq
  intro i hi
  rw [testBit_not64, testBit_prefix_xor, parity_upto_xor_carry q c hc]; simp [hi]

theorem shiftRight_63_eq (r : Nat) (hr : r < 2 ^ 64) : r >>> 63 = (r.testBit 63).toNat := by
  rw [Nat.shiftRight_eq_div_pow, Nat.toNat_testBit]
  omega

/-- The subtraction identity on whole words: with `r = prefix_xor (q ^ c)`,
`r + opening + c = closing + 2^64 * (bit 63 of r)`. -/
theorem fast_path_identity (c q : Nat) (hc : c ≤ 1) (hq : q < 2 ^ 64) :
    bitmask.prefix_xor (q ^^^ c) + opening_quotes c q + c
      = closing_quotes c q + 2 ^ 64 * (bitmask.prefix_xor (q ^^^ c) >>> 63) := by
  have h := borrow_chain q (decide (c = 1)) 64
  rw [shiftRight_63_eq _ (prefix_xor_lt _), testBit_prefix_xor, parity_upto_xor_carry q c hc,
    opening_quotes_eq c q hc hq, closing_quotes_eq c q hc hq, prefix_xor_carry_eq_reference q c hc]
  unfold parity_reference
  have hcb : (decide (c = 1)).toNat = c := by
    have h : c = 0 ∨ c = 1 := by omega
    rcases h with h | h <;> subst h <;> simp
  rw [hcb] at h
  simpa using h

/-! ## The string scanner: properties -/

/-- C1 (evaluation at a failing input): on a fresh scanner (carry-in 0) the block
with unescaped quotes at positions 1 and 4, both in the separator mask
(`q = s = 0x12`, as in `["a,"]`), `next_in_string` returns the
subtract-with-borrow word `0xFFFFFFFFFFFFFFEE`, whereas the parity mask of that
block, which is also what `prefix_xor` computes, is `0x0E`; with the empty
separator mask the same quotes give `0x0E`, so the separator mask does change
the returned mask. -/
theorem next_in_string_differs_from_parity_mask :
    (json_string_scanner.fresh.next_in_string 0x12 0x12).1 = 0xFFFFFFFFFFFFFFEE ∧
    parity_reference 0 0x12 = 0x0E ∧
    bitmask.prefix_xor (0x12 ^^^ 0) = 0x0E ∧
    (json_string_scanner.fresh.next_in_string 0x12 0).1 = 0x0E := by
  decide

/-- C2 (evaluation at a failing input): the one-block sequence with two unescaped
quotes (positions 1 and 4, both in the separator mask) leaves the in-string
carry at 1 on a fresh scanner, and `finish` then returns `UNCLOSED_STRING`
although the number of quotes is even; with the empty separator mask the same
quotes leave the carry at 0 and `finish` returns `SUCCESS`. -/
theorem even_quotes_reported_unclosed :
    total_quotes [(0x12, 0x12)] = 2 ∧
    (json_string_scanner.fresh.feed_in_string [(0x12, 0x12)]).still_in_string = 1 ∧
    (json_string_scanner.fresh.feed_in_string [(0x12, 0x12)]).finish
      = error_code.UNCLOSED_STRING ∧
    (json_string_scanner.fresh.feed_in_string [(0x12, 0)]).finish = error_code.SUCCESS := by
  decide

/-- C3 (evaluation at a failing input): in the block `q = s = 0x12` with carry-in
0 the fast-path assumption is violated (the quote at position 4 closes a string
and lies in the separator mask), yet `next_in_string` does not take the fallback
branch: the returned mask is not `prefix_xor (q ^ c)` and the new carry is not
bit 63 of that mask. -/
theorem violated_block_skips_fallback :
    fast_path_violated 0 0x12 0x12 ∧
    closing_quotes 0 0x12 &&& 0x12 = 0x10 ∧
    (json_string_scanner.fresh.next_in_string 0x12 0x12).1 ≠ bitmask.prefix_xor (0x12 ^^^ 0) ∧
    (json_string_scanner.fresh.next_in_string 0x12 0x12).2.still_in_string
      ≠ bitmask.prefix_xor (0x12 ^^^ 0) >>> 63 := by
  decide

/-- C4: for a carry-in `c` in {0,1} and a block `(q, s)` in which the fast-path
assumption holds (lead quotes are exactly the opening quotes, trailing quotes
exactly the closing quotes), `subtract_borrow (q & ~s, q & s, c)` returns the
word `prefix_xor (q ^ c)` and its borrow-out is bit 63 of that word. -/
theorem subtract_borrow_eq_prefix_xor (c q s : Nat) (hc : c ≤ 1) (hq : q < 2 ^ 64)
    (h : fast_path_assumption c q s) :
    bitmask.subtract_borrow (q &&& not64 s) (q &&& s) c
      = (bitmask.prefix_xor (q ^^^ c), bitmask.prefix_xor (q ^^^ c) >>> 63) := by
  obtain ⟨h1, h2⟩ := h
  rw [h2, h1]
  have hid := fast_path_identity c q hc hq
  have hr := prefix_xor_lt (q ^^^ c)
  have hsh : bitmask.prefix_xor (q ^^^ c) >>> 63 ≤ 1 := by
    rw [Nat.shiftRight_eq_div_pow]; omega
  have ho : opening_quotes c q ≤ q := Nat.and_le_left
  have hcl : closing_quotes c q ≤ q := Nat.and_le_left
  unfold bitmask.subtract_borrow
  refine Prod.ext ?_ ?_
  · show (2 ^ 64 + closing_quotes c q - (opening_quotes c q + c)) % 2 ^ 64 = _
    omega
  · show (if closing_quotes c q < opening_quotes c q + c then 1 else 0) = _
    split <;> omega

/-- Witness for C4: carry-in 0, quotes at positions 1 and 6, the opening one in
the separator mask. -/
theorem subtract_borrow_eq_prefix_xor_witness :
    (0 : Nat) ≤ 1 ∧ (0x42 : Nat) < 2 ^ 64 ∧ fast_path_assumption 0 0x42 0x02 ∧
    bitmask.subtract_borrow (0x42 &&& not64 0x02) (0x42 &&& 0x02) 0
      = (bitmask.prefix_xor (0x42 ^^^ 0), bitmask.prefix_xor (0x42 ^^^ 0) >>> 63) :=
  ⟨by decide, by decide, by decide,
    subtract_borrow_eq_prefix_xor 0 0x42 0x02 (by decide) (by decide) (by decide)⟩

/-- C5: `finish` returns `UNCLOSED_STRING` exactly when `still_in_string` is
non-zero and `SUCCESS` exactly when it is zero, never any other status; being a
function of the scanner alone it leaves the scanner as it was; on a freshly
constructed scanner it returns `SUCCESS`. -/
theorem finish_status (self : json_string_scanner) :
    (self.finish = error_code.UNCLOSED_STRING ↔ self.still_in_string ≠ 0) ∧
    (self.finish = error_code.SUCCESS ↔ self.still_in_string = 0) ∧
    (∀ n, self.finish ≠ error_code.OTHER n) ∧
    json_string_scanner.fresh.finish = error_code.SUCCESS := by
  unfold json_string_scanner.finish
  refine ⟨?_, ?_, ?_, by decide⟩
  · split <;> simp_all
  · split <;> simp_all
  · intro n; split <;> simp

/-! ## Backslash runs -/

theorem testBit_block_mask (p : Nat → Bool) (b i : Nat) :
    (block_mask p b).testBit i = (decide (i < 64) && p (64 * b + i)) :=
  testBit_bits_to_mask _ 64 i

/-- Inside block `b` of the buffer of `k` backslashes, starting from an even
carried run: the run before position `i` is odd exactly when `i` is odd and
every earlier position of the block is a backslash. -/
theorem odd_run_before_backslash_run (k b i : Nat) (hi : i ≤ 64) :
    odd_run_before (block_mask (fun j => decide (j < k)) b) false i
      = (decide (i % 2 = 1) && decide (64 * b + i ≤ k)) := by
  induction i with
  | zero => simp [odd_run_before]
  | succ i ih =>
    have hi2 : i < 64 := by omega
    simp only [odd_run_before, testBit_block_mask, ih (by omega), hi2, decide_True,
      Bool.true_and]
    by_cases hlt : 64 * b + i < k
    · have h1 : 64 * b + i ≤ k := by omega
      have h2 : 64 * b + (i + 1) ≤ k := by omega
      simp only [hlt, h1, h2, decide_True, if_true, Bool.and_true]
      by_cases hodd : i % 2 = 1
      · have : ¬ (i + 1) % 2 = 1 := by omega
        simp [hodd, this]
      · have : (i + 1) % 2 = 1 := by omega
        simp [hodd, this]
    · have h2 : ¬ 64 * b + (i + 1) ≤ k := by omega
      simp [hlt, h2]

/-- One block of the backslash-run buffer through `next_unescaped_quotes`, the
carried run being even: the quote bit survives exactly in the block that holds
the quote when `k` is even, and the carried run stays even. -/
theorem next_unescaped_quotes_backslash_run (self : json_string_scanner) (k b : Nat)
    (hcarry : self.escape_scanner.escape_parity_carry = false) :
    self.next_unescaped_quotes (block_mask (fun j => decide (j < k)) b)
        (block_mask (fun j => decide (j = k)) b)
      = ((if b = k / 64 ∧ k % 2 = 0 then 2 ^ (k % 64) else 0),
         { self with escape_scanner := { escape_parity_carry := false } }) := by
  unfold json_string_scanner.next_unescaped_quotes json_escape_scanner.next
  rw [hcarry]
  refine Prod.ext ?_ ?_
  · show block_mask (fun j => decide (j = k)) b &&& not64 (bits_to_mask _ 64) = _
    apply Nat.eq_of_testBit_eq
    intro i
    rw [Nat.testBit_and, testBit_not64, testBit_bits_to_mask, testBit_block_mask,
      testBit_block_mask]
    by_cases hi : i < 64
    · rw [odd_run_before_backslash_run k b i (by omega)]
      by_cases hk : 64 * b + i = k
      · have hb : b = k / 64 := by omega
        have hi2 : k % 64 = i := by omega
        have hlt : ¬ 64 * b + i < k := by omega
        have hle : 64 * b + i ≤ k := by omega
        by_cases hev : k % 2 = 0
        · have hio : ¬ i % 2 = 1 := by omega
          simp [hi, hk, hb, hev, hi2, hio, Nat.testBit_two_pow]
          omega
        · have hio : i % 2 = 1 := by omega
          simp [hi, hk, hev, hio, hle, hlt]
      · have hne : ¬ (b = k / 64 ∧ k % 2 = 0 ∧ k % 64 = i) := by omega
        by_cases hc : b = k / 64 ∧ k % 2 = 0
        · have hi2 : ¬ k % 64 = i := by omega
          simp [hi, hk, hc, Nat.testBit_two_pow, hi2]
          omega
        · simp [hi, hk, hc]
    · by_cases hc : b = k / 64 ∧ k % 2 = 0
      · have hi2 : ¬ k % 64 = i := by omega
        simp [hi, hc, Nat.testBit_two_pow, hi2]
      · simp [hi, hc]
  · show ({ self with escape_scanner := { escape_parity_carry := odd_run_before _ false 64 } }
        : json_string_scanner) = _
    rw [odd_run_before_backslash_run k b 64 (by omega)]
    simp

/-- Consecutive blocks `b, b+1, ..` of the backslash-run buffer, fed to a scanner
whose carried run is even. -/
theorem feed_backslash_run_blocks (k n : Nat) :
    ∀ (b : Nat) (self : json_string_scanner),
      self.escape_scanner.escape_parity_carry = false →
      self.feed_unescaped_quotes
          ((List.range' b n).map (fun b =>
            (block_mask (fun j => decide (j < k)) b, block_mask (fun j => decide (j = k)) b)))
        = (List.range' b n).map
            (fun b => if b = k / 64 ∧ k % 2 = 0 then 2 ^ (k % 64) else 0) := by
  induction n with
  | zero => intro b self _; simp [json_string_scanner.feed_unescaped_quotes]
  | succ n ih =>
    intro b self hcarry
    simp only [List.range'_succ, List.map_cons, json_string_scanner.feed_unescaped_quotes]
    rw [next_unescaped_quotes_backslash_run self k b hcarry]
    simp only
    rw [ih (b + 1) _ rfl]

/-- C6: for every `k`, feeding the blocks of the buffer "`k` backslashes, then a
quote" to `next_unescaped_quotes` on a fresh scanner returns, block by block,
the mask `2 ^ (k % 64)` in block `k / 64` (the quote's position) when `k` is
even and the zero mask everywhere else: the quote is reported iff `k` is even. -/
theorem backslash_run_quote_parity (k : Nat) :
    json_string_scanner.fresh.feed_unescaped_quotes (backslash_run_blocks k)
      = (List.range (k / 64 + 1)).map
          (fun b => if b = k / 64 ∧ k % 2 = 0 then 2 ^ (k % 64) else 0) := by
  unfold backslash_run_blocks
  rw [List.range_eq_range']
  exact feed_backslash_run_blocks k (k / 64 + 1) 0 json_string_scanner.fresh rfl

/-! ## The concrete scenario -/

/-- C7 (as stated, refuted): for the block `a " b \ " c " d` (backslash mask
`{3}`, raw quote mask `{1,4,6}`, empty separator mask) on a fresh scanner it is
not the case that the unescaped quotes are `{1,6}`, the returned mask is the
bits 1 through 6 inclusive and `finish` returns `SUCCESS`: the returned mask is
not `0x7E`. -/
theorem scenario_mask_not_one_through_six :
    ¬ ((json_string_scanner.fresh.next_unescaped_quotes 0x08 0x52).1 = 0x42 ∧
       (json_string_scanner.fresh.next 0x08 0x52 0).1 = 0x7E ∧
       (json_string_scanner.fresh.next 0x08 0x52 0).2.finish = error_code.SUCCESS) := by
  decide

/-- C7 (amended): for the block `a " b \ " c " d` on a fresh scanner the
unescaped quotes are exactly positions 1 and 6, the returned inside-string mask
has exactly the bits of positions 1 through 5 set (the opening quote is
included, the closing quote at position 6 is not), and `finish` then returns
`SUCCESS`. -/
theorem scenario_mask_one_through_five :
    (json_string_scanner.fresh.next_unescaped_quotes 0x08 0x52).1 = 0x42 ∧
    (json_string_scanner.fresh.next 0x08 0x52 0).1 = 0x3E ∧
    (∀ i, (0x3E : Nat).testBit i = true ↔ 1 ≤ i ∧ i ≤ 5) ∧
    (json_string_scanner.fresh.next 0x08 0x52 0).2.finish = error_code.SUCCESS := by
  refine ⟨by decide, by decide, ?_, by decide⟩
  intro i
  constructor
  · intro h
    by_contra hc
    have hi : i = 0 ∨ 6 ≤ i := by omega
    rcases hi with hi | hi
    · subst hi; simp at h
    · have : (0x3E : Nat) < 2 ^ i :=
        lt_of_lt_of_le (by decide : (0x3E : Nat) < 2 ^ 6) (Nat.pow_le_pow_right (by decide) hi)
      rw [Nat.testBit_lt_two_pow this] at h
      exact Bool.noConfusion h
  · rintro ⟨h1, h5⟩
    interval_cases i <;> decide

/-! ## The byte classifier: properties -/

theorem load_getD (mem : memory) (src i : Nat) (hi : i < 32) :
    (simd8.load mem src).getD i 0 = mem (src + i) := by
  unfold simd8.load
  rw [List.getD_eq_getElem?_getD, List.getElem?_map, List.getElem?_range hi]
  rfl

theorem testBit_eq_bitmask_load (mem : memory) (src c i : Nat) :
    ((simd8.load mem src).eq_bitmask c % 2 ^ 32).testBit i
      = (decide (i < 32) && decide (mem (src + i) = c)) := by
  have hlt : (simd8.load mem src).eq_bitmask c < 2 ^ 32 := bits_to_mask_lt _ 32
  rw [Nat.mod_eq_of_lt hlt]
  unfold simd8.eq_bitmask
  rw [testBit_bits_to_mask]
  by_cases hi : i < 32
  · rw [load_getD mem src i hi]
    by_cases hc : mem (src + i) = c <;> simp [hi, hc]
  · simp [hi]

theorem copy_and_find_bs_lt (mem : memory) (src dst : Nat) :
    (backslash_and_quote.copy_and_find mem src dst).1.bs_bits < 2 ^ 32 :=
  Nat.mod_lt _ (by decide)

theorem copy_and_find_quote_lt (mem : memory) (src dst : Nat) :
    (backslash_and_quote.copy_and_find mem src dst).1.quote_bits < 2 ^ 32 :=
  Nat.mod_lt _ (by decide)

theorem testBit_copy_and_find_bs (mem : memory) (src dst i : Nat) :
    (backslash_and_quote.copy_and_find mem src dst).1.bs_bits.testBit i
      = (decide (i < 32) && decide (mem (src + i) = 0x5C)) :=
  testBit_eq_bitmask_load mem src 0x5C i

theorem testBit_copy_and_find_quote (mem : memory) (src dst i : Nat) :
    (backslash_and_quote.copy_and_find mem src dst).1.quote_bits.testBit i
      = (decide (i < 32) && decide (mem (src + i) = 0x22)) :=
  testBit_eq_bitmask_load mem src 0x22 i

theorem copy_and_find_disjoint (mem : memory) (src dst : Nat) :
    (backslash_and_quote.copy_and_find mem src dst).1.bs_bits
      &&& (backslash_and_quote.copy_and_find mem src dst).1.quote_bits = 0 := by
  apply Nat.eq_of_testBit_eq
  intro i
  rw [Nat.testBit_and, testBit_copy_and_find_bs, testBit_copy_and_find_quote]
  by_cases h : mem (src + i) = 0x5C <;> simp [h]

/-- C8: for every 32-byte block at `src` and every position `i < 32`, bit `i` of
`bs_bits` is set iff the byte at `src + i` is the backslash `0x5C` and bit `i`
of `quote_bits` is set iff it is the quote `0x22`; and a block whose only quote
or backslash byte is a quote at position `i` yields `quote_bits = 2 ^ i` and
`bs_bits = 0`. -/
theorem copy_and_find_masks (mem : memory) (src dst i : Nat) (hi : i < 32) :
    ((backslash_and_quote.copy_and_find mem src dst).1.bs_bits.testBit i = true
        ↔ mem (src + i) = 0x5C) ∧
    ((backslash_and_quote.copy_and_find mem src dst).1.quote_bits.testBit i = true
        ↔ mem (src + i) = 0x22) ∧
    (mem (src + i) = 0x22 → (∀ j, j < 32 → j ≠ i → mem (src + j) ≠ 0x22) →
      (∀ j, j < 32 → mem (src + j) ≠ 0x5C) →
      (backslash_and_quote.copy_and_find mem src dst).1.quote_bits = 2 ^ i ∧
      (backslash_and_quote.copy_and_find mem src dst).1.bs_bits = 0) := by
  refine ⟨?_, ?_, ?_⟩
  · rw [testBit_copy_and_find_bs]; simp [hi]
  · rw [testBit_copy_and_find_quote]; simp [hi]
  · intro hq hothers hnobs
    constructor
    · apply Nat.eq_of_testBit_eq
      intro j
      rw [testBit_copy_and_find_quote, Nat.testBit_two_pow]
      by_cases hj : j < 32
      · by_cases hji : j = i
        · subst hji; simp [hj, hq]
        · have := hothers j hj hji
          have hij : ¬ i = j := fun h => hji h.symm
          simp [hj, this, hij]
      · have hij : ¬ i = j := by omega
        simp [hj, hij]
    · apply Nat.eq_of_testBit_eq
      intro j
      rw [testBit_copy_and_find_bs]
      by_cases hj : j < 32
      · simp [hj, hnobs j hj]
      · simp [hj]

/-- Witness for C8: the block `a a a " a a ...` read at address 0 and copied to
address 64, position 3. -/
theorem copy_and_find_masks_witness :
    (3 : Nat) < 32 ∧
    (backslash_and_quote.copy_and_find (fun a => if a = 3 then 0x22 else 0x61) 0 64).1.quote_bits
      = 2 ^ 3 ∧
    (backslash_and_quote.copy_and_find (fun a => if a = 3 then 0x22 else 0x61) 0 64).1.bs_bits
      = 0 :=
  ⟨by decide,
    (copy_and_find_masks (fun a => if a = 3 then 0x22 else 0x61) 0 64 3 (by decide)).2.2
      (by decide)
      (by intro j _ hj; simp [hj])
      (by intro j _; split <;> decide)⟩

/-! ## Ordering queries -/

/-- Bits of `m - 1` when `p` is the lowest set bit of `m`: ones below `p`, zero
at `p`, the bits of `m` above. -/
theorem testBit_pred_of_lowest (m p : Nat) (h : is_lowest_set_bit m p) (j : Nat) :
    (m - 1).testBit j = if j < p then true else if j = p then false else m.testBit j := by
  obtain ⟨hp, hbelow⟩ := h
  have hmod : m % 2 ^ p = 0 := by
    apply Nat.eq_of_testBit_eq
    intro i
    rw [Nat.testBit_mod_two_pow]
    by_cases hi : i < p
    · simp [hi, hbelow i hi]
    · simp [hi]
  have hodd : m / 2 ^ p % 2 = 1 := by
    have := hp
    rw [Nat.testBit_to_div_mod] at this
    exact of_decide_eq_true this
  have hm : m = 2 ^ p * (m / 2 ^ p) + 0 := by
    have := Nat.div_add_mod m (2 ^ p)
    rw [hmod] at this
    exact this.symm
  have hpos : 0 < 2 ^ p := Nat.pow_pos (by decide)
  generalize m / 2 ^ p = t at hodd hm
  have hm1 : m - 1 = 2 ^ p * (t - 1) + (2 ^ p - 1) := by
    have ht : t = (t - 1) + 1 := by omega
    have h3 : 2 ^ p * t = 2 ^ p * (t - 1) + 2 ^ p := by
      conv_lhs => rw [ht]
      rw [Nat.mul_succ]
    generalize 2 ^ p = P at hm h3 hpos ⊢
    omega
  have hlt : 2 ^ p - 1 < 2 ^ p := by omega
  have hm' : m.testBit j = if j < p then (0 : Nat).testBit j else t.testBit (j - p) := by
    conv_lhs => rw [hm]
    exact Nat.testBit_mul_pow_two_add _ hpos j
  rw [hm1, Nat.testBit_mul_pow_two_add _ hlt j, hm', Nat.testBit_two_pow_sub_one]
  by_cases hj : j < p
  · simp [hj]
  · simp only [hj, if_false]
    by_cases hjp : j = p
    · subst hjp
      simp only [Nat.sub_self, if_true, Nat.testBit_zero]
      have : ¬ (t - 1) % 2 = 1 := by omega
      simp [this]
    · simp only [hjp, if_false]
      obtain ⟨d, hd⟩ : ∃ d, j - p = d + 1 := ⟨j - p - 1, by omega⟩
      rw [hd, Nat.testBit_succ, Nat.testBit_succ]
      congr 1
      omega

/-- A non-zero mask has a lowest set bit. -/
theorem exists_lowest_set_bit (m : Nat) (hm : m ≠ 0) : ∃ p, is_lowest_set_bit m p := by
  classical
  have hex : ∃ i, m.testBit i = true := Nat.ne_zero_implies_bit_true hm
  refine ⟨Nat.find hex, Nat.find_spec hex, ?_⟩
  intro j hj
  have := Nat.find_min hex hj
  simpa using this

/-- The shape of both ordering queries: for disjoint 32-bit masks `a` and `b`,
`q` being the lowest set bit of `b`, the word `(a - 1) & b` (in `uint32_t`
arithmetic) is non-zero iff `a` is zero or `q` lies below the lowest set bit of
`a`. -/
theorem pred_and_ne_zero_iff (a b q : Nat) (ha : a < 2 ^ 32) (hb : b < 2 ^ 32)
    (hdisj : a &&& b = 0) (hq : is_lowest_set_bit b q) :
    ((a + 2 ^ 32 - 1) % 2 ^ 32) &&& b ≠ 0 ↔ (a = 0 ∨ ∃ p, is_lowest_set_bit a p ∧ q < p) := by
  have hq32 : q < 32 := by
    by_contra hc
    have : b < 2 ^ q := lt_of_lt_of_le hb (Nat.pow_le_pow_right (by decide) (by omega))
    have := Nat.testBit_lt_two_pow this
    rw [hq.1] at this
    exact Bool.noConfusion this
  have hne_of_bit : ∀ x i : Nat, x.testBit i = true → x ≠ 0 := by
    intro x i hx h0
    rw [h0] at hx
    simp at hx
  by_cases ha0 : a = 0
  · subst ha0
    constructor
    · intro _; exact Or.inl rfl
    · intro _
      apply hne_of_bit _ q
      rw [Nat.testBit_and, hq.1]
      have : (0 + 2 ^ 32 - 1) % 2 ^ 32 = 2 ^ 32 - 1 := by norm_num
      rw [this, Nat.testBit_two_pow_sub_one]
      simp [hq32]
  · have hpred : (a + 2 ^ 32 - 1) % 2 ^ 32 = a - 1 := by omega
    rw [hpred]
    constructor
    · intro hne
      right
      obtain ⟨p, hp⟩ := exists_lowest_set_bit a ha0
      refine ⟨p, hp, ?_⟩
      obtain ⟨j, hj⟩ := Nat.ne_zero_implies_bit_true hne
      rw [Nat.testBit_and, testBit_pred_of_lowest a p hp j] at hj
      have hbj : b.testBit j = true := by
        cases hb' : b.testBit j
        · rw [hb'] at hj; simp at hj
        · rfl
      rw [hbj, Bool.and_true] at hj
      have hqj : q ≤ j := by
        by_contra hc
        have := hq.2 j (by omega)
        rw [hbj] at this
        exact Bool.noConfusion this
      by_cases hjp : j < p
      · omega
      · exfalso
        simp only [hjp, if_false] at hj
        by_cases hjp2 : j = p
        · simp [hjp2] at hj
        · simp only [hjp2, if_false] at hj
          have : (a &&& b).testBit j = true := by rw [Nat.testBit_and, hj, hbj]; rfl
          rw [hdisj] at this
          simp at this
    · rintro (h0 | ⟨p, hp, hqp⟩)
      · exact absurd h0 ha0
      · apply hne_of_bit _ q
        rw [Nat.testBit_and, testBit_pred_of_lowest a p hp q, hq.1]
        simp [hqp]

/-- C9: for the masks returned by `copy_and_find` on any block, with `q` the
lowest set bit of `quote_bits` (so `quote_bits` is non-zero), `has_quote_first`
is true iff `bs_bits` is zero or `q < p`, `p` being the lowest set bit of
`bs_bits`. -/
theorem has_quote_first_iff_quote_below_backslash (mem : memory) (src dst q : Nat)
    (hq : is_lowest_set_bit (backslash_and_quote.copy_and_find mem src dst).1.quote_bits q) :
    (backslash_and_quote.copy_and_find mem src dst).1.has_quote_first = true ↔
      ((backslash_and_quote.copy_and_find mem src dst).1.bs_bits = 0 ∨
        ∃ p, is_lowest_set_bit (backslash_and_quote.copy_and_find mem src dst).1.bs_bits p
          ∧ q < p) := by
  unfold backslash_and_quote.has_quote_first
  rw [bne_iff_ne]
  exact pred_and_ne_zero_iff _ _ q (copy_and_find_bs_lt mem src dst)
    (copy_and_find_quote_lt mem src dst) (copy_and_find_disjoint mem src dst) hq

/-- Witness for C9: a block with a quote at position 3 and a backslash at
position 5; the quote comes first. -/
theorem has_quote_first_iff_quote_below_backslash_witness :
    is_lowest_set_bit
      (backslash_and_quote.copy_and_find
        (fun a => if a = 3 then 0x22 else if a = 5 then 0x5C else 0x61) 0 64).1.quote_bits 3 ∧
    (backslash_and_quote.copy_and_find
        (fun a => if a = 3 then 0x22 else if a = 5 then 0x5C else 0x61) 0 64).1.has_quote_first
      = true :=
  ⟨by decide,
    (has_quote_first_iff_quote_below_backslash
      (fun a => if a = 3 then 0x22 else if a = 5 then 0x5C else 0x61) 0 64 3 (by decide)).2
      (Or.inr ⟨5, by decide, by decide⟩)⟩

/-- C10: for the masks returned by `copy_and_find` on any block, with `p` the
lowest set bit of `bs_bits` (so `bs_bits` is non-zero), `has_backslash` is true
iff `quote_bits` is zero or `p < q`, `q` being the lowest set bit of
`quote_bits`; hence `has_backslash` is false whenever a quote precedes the first
backslash of the block. -/
theorem has_backslash_iff_backslash_below_quote (mem : memory) (src dst p : Nat)
    (hp : is_lowest_set_bit (backslash_and_quote.copy_and_find mem src dst).1.bs_bits p) :
    ((backslash_and_quote.copy_and_find mem src dst).1.has_backslash = true ↔
      ((backslash_and_quote.copy_and_find mem src dst).1.quote_bits = 0 ∨
        ∃ q, is_lowest_set_bit (backslash_and_quote.copy_and_find mem src dst).1.quote_bits q
          ∧ p < q)) ∧
    (∀ q, is_lowest_set_bit (backslash_and_quote.copy_and_find mem src dst).1.quote_bits q →
      q < p → (backslash_and_quote.copy_and_find mem src dst).1.has_backslash = false) := by
  have hdisj : (backslash_and_quote.copy_and_find mem src dst).1.quote_bits
      &&& (backslash_and_quote.copy_and_find mem src dst).1.bs_bits = 0 := by
    rw [Nat.and_comm]; exact copy_and_find_disjoint mem src dst
  have hiff : (backslash_and_quote.copy_and_find mem src dst).1.has_backslash = true ↔
      ((backslash_and_quote.copy_and_find mem src dst).1.quote_bits = 0 ∨
        ∃ q, is_lowest_set_bit (backslash_and_quote.copy_and_find mem src dst).1.quote_bits q
          ∧ p < q) := by
    unfold backslash_and_quote.has_backslash
    rw [bne_iff_ne]
    exact pred_and_ne_zero_iff _ _ p (copy_and_find_quote_lt mem src dst)
      (copy_and_find_bs_lt mem src dst) hdisj hp
  refine ⟨hiff, ?_⟩
  intro q hq hqp
  cases hb : (backslash_and_quote.copy_and_find mem src dst).1.has_backslash
  · rfl
  · exfalso
    rcases hiff.1 hb with h0 | ⟨q', hq', hpq'⟩
    · have := hq.1
      rw [h0] at this
      simp at this
    · have h1 : ¬ q < q' := by
        intro hlt
        have := hq'.2 q hlt
        rw [hq.1] at this
        exact Bool.noConfusion this
      omega

/-- Witness for C10: a block with a quote at position 3 and a backslash at
position 5; the block contains a backslash, and `has_backslash` is false. -/
theorem has_backslash_iff_backslash_below_quote_witness :
    is_lowest_set_bit
      (backslash_and_quote.copy_and_find
        (fun a => if a = 3 then 0x22 else if a = 5 then 0x5C else 0x61) 0 64).1.bs_bits 5 ∧
    (backslash_and_quote.copy_and_find
        (fun a => if a = 3 then 0x22 else if a = 5 then 0x5C else 0x61) 0 64).1.has_backslash
      = false :=
  ⟨by decide,
    (has_backslash_iff_backslash_below_quote
      (fun a => if a = 3 then 0x22 else if a = 5 then 0x5C else 0x61) 0 64 5 (by decide)).2
      3 (by decide) (by decide)⟩

/-! ## The unconditional copy -/

/-- After `copy_and_find`, byte `i` of the destination block is the byte that
was at position `i` of the source block before the call, whatever the bytes
are and wherever the two blocks lie. -/
theorem copy_and_find_dst (mem : memory) (src dst i : Nat) (hi : i < 32) :
    (backslash_and_quote.copy_and_find mem src dst).2 (dst + i) = mem (src + i) := by
  show simd8.store (simd8.load mem src) mem dst (dst + i) = _
  unfold simd8.store
  have h : dst ≤ dst + i ∧ dst + i < dst + 32 := by omega
  rw [if_pos h, Nat.add_sub_cancel_left, load_getD mem src i hi]

/-- `copy_and_find` writes nothing outside the 32 bytes of the destination block. -/
theorem copy_and_find_frame (mem : memory) (src dst a : Nat) (ha : a < dst ∨ dst + 32 ≤ a) :
    (backslash_and_quote.copy_and_find mem src dst).2 a = mem a := by
  show simd8.store (simd8.load mem src) mem dst a = _
  unfold simd8.store
  have h : ¬ (dst ≤ a ∧ a < dst + 32) := by omega
  rw [if_neg h]

/-- C11: for every memory content and every position `i < 32`, the destination
block being a buffer separate from the source block, after `copy_and_find` the
byte at `dst + i` equals the byte at `src + i`, and the byte at `src + i` is the
one that was there before the call. -/
theorem copy_and_find_copies_block (mem : memory) (src dst i : Nat) (hi : i < 32)
    (hsep : src + 32 ≤ dst ∨ dst + 32 ≤ src) :
    (backslash_and_quote.copy_and_find mem src dst).2 (dst + i)
      = (backslash_and_quote.copy_and_find mem src dst).2 (src + i) ∧
    (backslash_and_quote.copy_and_find mem src dst).2 (src + i) = mem (src + i) := by
  have hsrc : (backslash_and_quote.copy_and_find mem src dst).2 (src + i) = mem (src + i) :=
    copy_and_find_frame mem src dst (src + i) (by omega)
  exact ⟨by rw [hsrc]; exact copy_and_find_dst mem src dst i hi, hsrc⟩

/-- Witness for C11: a block holding a quote and a backslash, read at address 0
and copied to address 64; position 5 (the backslash). -/
theorem copy_and_find_copies_block_witness :
    (5 : Nat) < 32 ∧ ((0 : Nat) + 32 ≤ 64 ∨ 64 + 32 ≤ (0 : Nat)) ∧
    (backslash_and_quote.copy_and_find
        (fun a => if a = 3 then 0x22 else if a = 5 then 0x5C else 0x61) 0 64).2 (64 + 5)
      = (backslash_and_quote.copy_and_find
        (fun a => if a = 3 then 0x22 else if a = 5 then 0x5C else 0x61) 0 64).2 (0 + 5) ∧
    (backslash_and_quote.copy_and_find
        (fun a => if a = 3 then 0x22 else if a = 5 then 0x5C else 0x61) 0 64).2 (0 + 5)
      = 0x5C :=
  ⟨by decide, Or.inl (by decide),
    copy_and_find_copies_block
      (fun a => if a = 3 then 0x22 else if a = 5 then 0x5C else 0x61) 0 64 5 (by decide)
      (Or.inl (by decide))⟩

/-! ## The two branches of `next_in_string` -/

/-- When `lead_quote_in_string` is zero, `next_in_string` returns the prefix-XOR
word and stores its top bit; the escape scanner is not touched. -/
theorem next_in_string_of_zero (self : json_string_scanner) (q s : Nat)
    (h : self.lead_quote_in_string q s = 0) :
    self.next_in_string q s
      = (bitmask.prefix_xor (q ^^^ self.still_in_string),
         { self with
           still_in_string := bitmask.prefix_xor (q ^^^ self.still_in_string) >>> 63 }) := by
  unfold json_string_scanner.lead_quote_in_string at h
  unfold json_string_scanner.next_in_string
  simp only [h, if_true]

/-- When `lead_quote_in_string` is non-zero, `next_in_string` returns the
subtract-with-borrow word and stores its borrow-out. -/
theorem next_in_string_of_ne_zero (self : json_string_scanner) (q s : Nat)
    (h : self.lead_quote_in_string q s ≠ 0) :
    self.next_in_string q s
      = ((bitmask.subtract_borrow (q &&& not64 s) (q &&& s) self.still_in_string).1,
         { self with still_in_string :=
             (bitmask.subtract_borrow (q &&& not64 s) (q &&& s) self.still_in_string).2 }) := by
  unfold json_string_scanner.lead_quote_in_string at h
  unfold json_string_scanner.next_in_string
  simp only [h, if_false]

/-- Subtracting the opening quotes (and the carry) from the closing quotes gives
the prefix-XOR word, the borrow-out being its top bit. -/
theorem subtract_borrow_closing_opening (c q : Nat) (hc : c ≤ 1) (hq : q < 2 ^ 64) :
    bitmask.subtract_borrow (closing_quotes c q) (opening_quotes c q) c
      = (bitmask.prefix_xor (q ^^^ c), bitmask.prefix_xor (q ^^^ c) >>> 63) := by
  have hid := fast_path_identity c q hc hq
  have hr := prefix_xor_lt (q ^^^ c)
  have hsh : bitmask.prefix_xor (q ^^^ c) >>> 63 ≤ 1 := by
    rw [Nat.shiftRight_eq_div_pow]; omega
  have ho : opening_quotes c q ≤ q := Nat.and_le_left
  have hcl : closing_quotes c q ≤ q := Nat.and_le_left
  unfold bitmask.subtract_borrow
  refine Prod.ext ?_ ?_
  · show (2 ^ 64 + closing_quotes c q - (opening_quotes c q + c)) % 2 ^ 64 = _
    omega
  · show (if closing_quotes c q < opening_quotes c q + c then 1 else 0) = _
    split <;> omega

/-- Every opening quote has its bit set in the prefix-XOR word. -/
theorem opening_and_not_prefix_xor (c q : Nat) :
    opening_quotes c q &&& not64 (bitmask.prefix_xor (q ^^^ c)) = 0 := by
  apply Nat.eq_of_testBit_eq
  intro i
  unfold opening_quotes
  rw [Nat.testBit_and, Nat.testBit_and, testBit_not64, Nat.zero_testBit]
  by_cases hi : i < 64
  · cases (bitmask.prefix_xor (q ^^^ c)).testBit i <;> simp [hi]
  · have : (bitmask.prefix_xor (q ^^^ c)).testBit i = false := by
      rw [testBit_prefix_xor]; simp [hi]
    simp [hi, this]

/-- C12 (as stated, refuted): with carry-in 0, quotes at positions 1 and 6 and
the opening one in the separator mask, the fast-path assumption holds and
`lead_quote` is non-zero, yet `lead_quote & ~in_string` is zero. -/
theorem assumption_holds_check_is_zero :
    ¬ (fast_path_assumption 0 0x42 0x02 → 0x42 &&& 0x02 ≠ 0 →
        json_string_scanner.fresh.lead_quote_in_string 0x42 0x02 ≠ 0) := by
  decide

/-- C12 (amended): for a carry-in in {0,1} and a block in which the fast-path
assumption holds, `lead_quote & ~in_string` is zero (every lead quote has its
`in_string` bit set), and the mask `next_in_string` returns and the carry it
stores are the subtract-with-borrow word and its borrow-out. -/
theorem assumption_gives_subtract_borrow_result (self : json_string_scanner) (q s : Nat)
    (hc : self.still_in_string ≤ 1) (hq : q < 2 ^ 64)
    (h : fast_path_assumption self.still_in_string q s) :
    self.lead_quote_in_string q s = 0 ∧
    self.next_in_string q s
      = ((bitmask.subtract_borrow (q &&& not64 s) (q &&& s) self.still_in_string).1,
         { self with still_in_string :=
             (bitmask.subtract_borrow (q &&& not64 s) (q &&& s) self.still_in_string).2 }) := by
  obtain ⟨h1, h2⟩ := h
  have hsub := subtract_borrow_closing_opening self.still_in_string q hc hq
  have hz : self.lead_quote_in_string q s = 0 := by
    unfold json_string_scanner.lead_quote_in_string
    simp only [h1, h2, hsub]
    exact opening_and_not_prefix_xor self.still_in_string q
  refine ⟨hz, ?_⟩
  rw [next_in_string_of_zero self q s hz, h1, h2, hsub]

/-- Witness for C12 (amended): a fresh scanner, quotes at positions 1 and 6, the
opening one in the separator mask. -/
theorem assumption_gives_subtract_borrow_result_witness :
    json_string_scanner.fresh.still_in_string ≤ 1 ∧ (0x42 : Nat) < 2 ^ 64 ∧
    fast_path_assumption json_string_scanner.fresh.still_in_string 0x42 0x02 ∧
    json_string_scanner.fresh.lead_quote_in_string 0x42 0x02 = 0 ∧
    json_string_scanner.fresh.next_in_string 0x42 0x02
      = ((bitmask.subtract_borrow (0x42 &&& not64 0x02) (0x42 &&& 0x02)
            json_string_scanner.fresh.still_in_string).1,
         { json_string_scanner.fresh with still_in_string :=
             (bitmask.subtract_borrow (0x42 &&& not64 0x02) (0x42 &&& 0x02)
               json_string_scanner.fresh.still_in_string).2 }) :=
  ⟨by decide, by decide, by decide,
    assumption_gives_subtract_borrow_result json_string_scanner.fresh 0x42 0x02
      (by decide) (by decide) (by decide)⟩

/-! ## The fallback recomputation -/

theorem testBit_broadcast (c : Nat) (hc : c ≤ 1) (i : Nat) :
    (broadcast c).testBit i = (decide (i < 64) && decide (c = 1)) := by
  unfold broadcast
  have h : c = 0 ∨ c = 1 := by omega
  rcases h with h | h <;> subst h
  · simp
  · rw [if_neg (by decide), Nat.testBit_two_pow_sub_one]; simp

/-- XOR-ing the carry (0 or 1) into bit 0 before the prefix scan is the same as
XOR-ing the broadcast carry into the result of the scan. -/
theorem prefix_xor_carry_eq_xor_broadcast (q c : Nat) (hc : c ≤ 1) :
    bitmask.prefix_xor (q ^^^ c) = bitmask.prefix_xor q ^^^ broadcast c := by
  apply Nat.eq_of_testBit_eq
  intro i
  rw [Nat.testBit_xor, testBit_prefix_xor, testBit_prefix_xor, testBit_broadcast c hc,
    parity_upto_xor_carry q c hc]
  cases decide (i < 64) <;> cases decide (c = 1) <;> cases parity_upto q i <;> rfl

/-- C13 (as stated, refuted): after one block holding a single quote the carry
is 1; on the next block, without quotes, the fallback branch is taken
(`lead_quote_in_string = 0`) and returns the all-ones word, which is not the
prefix scan of `unescaped_quote XOR broadcast(carry)` (`0x5555555555555555`). -/
theorem fallback_does_not_broadcast_carry :
    (json_string_scanner.fresh.next_in_string 0x02 0).2.still_in_string = 1 ∧
    (json_string_scanner.fresh.next_in_string 0x02 0).2.lead_quote_in_string 0 0 = 0 ∧
    ((json_string_scanner.fresh.next_in_string 0x02 0).2.next_in_string 0 0).1
      = 0xFFFFFFFFFFFFFFFF ∧
    bitmask.prefix_xor (0 ^^^ broadcast 1) = 0x5555555555555555 ∧
    ((json_string_scanner.fresh.next_in_string 0x02 0).2.next_in_string 0 0).1
      ≠ bitmask.prefix_xor (0 ^^^ broadcast 1) := by
  decide

/-- C13 (amended): whenever `next_in_string` takes the fallback branch
(`lead_quote_in_string = 0`) with carry `c` held before the call, it returns
`prefix_xor (quote XOR c)`, the carry entering as the word 0 or 1 (bit 0 only),
and stores bit 63 of the returned mask as the new carry, the borrow written by
`subtract_borrow` being dropped; for `c` in {0,1} the returned mask equals
`prefix_xor (quote) XOR broadcast (c)`. -/
theorem fallback_recomputes_from_carry (self : json_string_scanner) (q s : Nat)
    (h : self.lead_quote_in_string q s = 0) :
    (self.next_in_string q s).1 = bitmask.prefix_xor (q ^^^ self.still_in_string) ∧
    (self.next_in_string q s).2.still_in_string
      = ((self.next_in_string q s).1.testBit 63).toNat ∧
    (self.next_in_string q s).2.escape_scanner = self.escape_scanner ∧
    (self.still_in_string ≤ 1 →
      (self.next_in_string q s).1 = bitmask.prefix_xor q ^^^ broadcast self.still_in_string) := by
  rw [next_in_string_of_zero self q s h]
  refine ⟨rfl, ?_, rfl, ?_⟩
  · exact shiftRight_63_eq _ (prefix_xor_lt _)
  · intro hc
    exact prefix_xor_carry_eq_xor_broadcast q self.still_in_string hc

/-- Witness for C13 (amended): the scanner left with carry 1 by a block holding
one quote, then a block without quotes. -/
theorem fallback_recomputes_from_carry_witness :
    (json_string_scanner.fresh.next_in_string 0x02 0).2.lead_quote_in_string 0 0 = 0 ∧
    ((json_string_scanner.fresh.next_in_string 0x02 0).2.next_in_string 0 0).1
      = bitmask.prefix_xor
          (0 ^^^ (json_string_scanner.fresh.next_in_string 0x02 0).2.still_in_string) ∧
    ((json_string_scanner.fresh.next_in_string 0x02 0).2.next_in_string 0 0).2.still_in_string
      = (((json_string_scanner.fresh.next_in_string 0x02 0).2.next_in_string 0 0).1.testBit
          63).toNat :=
  ⟨by decide,
    (fallback_recomputes_from_carry (json_string_scanner.fresh.next_in_string 0x02 0).2 0 0
      (by decide)).1,
    (fallback_recomputes_from_carry (json_string_scanner.fresh.next_in_string 0x02 0).2 0 0
      (by decide)).2.1⟩

/-! ## When the result is the parity reference -/

theorem bits_to_mask_succ_toNat (f : Nat → Bool) (n : Nat) :
    bits_to_mask f (n + 1) = bits_to_mask f n + (f n).toNat * 2 ^ n := by
  simp only [bits_to_mask]
  cases f n <;> simp

/-- Splitting the quotes of a block by separator bit `s` and by in-string bit
`r`: lead + closing + 2 * (trailing openers) = trailing + opening + 2 * (lead
closers). -/
theorem four_way_split (f s r : Nat → Bool) (n : Nat) :
    bits_to_mask (fun i => f i && s i) n + bits_to_mask (fun i => f i && !r i) n
        + 2 * bits_to_mask (fun i => f i && !s i && r i) n
      = bits_to_mask (fun i => f i && !s i) n + bits_to_mask (fun i => f i && r i) n
        + 2 * bits_to_mask (fun i => f i && s i && !r i) n := by
  induction n with
  | zero => simp [bits_to_mask]
  | succ n ih =>
    simp only [bits_to_mask_succ_toNat]
    cases f n <;> cases s n <;> cases r n <;> simp <;> omega

/-- Two masks over disjoint bit conditions that are equal are both zero. -/
theorem bits_to_mask_eq_zero_of_eq (f s r : Nat → Bool) (n : Nat)
    (h : bits_to_mask (fun i => f i && s i && !r i) n
      = bits_to_mask (fun i => f i && !s i && r i) n) :
    bits_to_mask (fun i => f i && s i && !r i) n = 0 := by
  apply Nat.eq_of_testBit_eq
  intro i
  have hi := congrArg (fun m => m.testBit i) h
  simp only [testBit_bits_to_mask] at hi
  rw [testBit_bits_to_mask, Nat.zero_testBit]
  revert hi
  cases decide (i < n) <;> cases f i <;> cases s i <;> cases r i <;> simp

theorem carry_reference_eq (c q : Nat) (hc : c ≤ 1) :
    bitmask.prefix_xor (q ^^^ c) >>> 63 = carry_reference c q := by
  rw [shiftRight_63_eq _ (prefix_xor_lt _), testBit_prefix_xor, parity_upto_xor_carry q c hc]
  simp [carry_reference]

/-- If the subtract-with-borrow word and its borrow-out are the prefix-XOR word
and its top bit, then no lead quote has a clear bit in that word. -/
theorem lead_check_zero_of_subtract_eq (c q s : Nat) (hc : c ≤ 1) (hq : q < 2 ^ 64)
    (h : bitmask.subtract_borrow (q &&& not64 s) (q &&& s) c
      = (bitmask.prefix_xor (q ^^^ c), bitmask.prefix_xor (q ^^^ c) >>> 63)) :
    (q &&& s) &&& not64 (bitmask.prefix_xor (q ^^^ c)) = 0 := by
  have hid := fast_path_identity c q hc hq
  have hr := prefix_xor_lt (q ^^^ c)
  have hLle : q &&& s ≤ q := Nat.and_le_left
  have hTle : q &&& not64 s ≤ q := Nat.and_le_left
  have h1 := congrArg Prod.fst h
  have h2 := congrArg Prod.snd h
  simp only [bitmask.subtract_borrow] at h1 h2
  have hsum : (q &&& s) + closing_quotes c q = (q &&& not64 s) + opening_quotes c q := by
    split at h2 <;> omega
  have hL : q &&& s = bits_to_mask (fun i => q.testBit i && s.testBit i) 64 :=
    and_eq_bits_to_mask q s _ hq (fun _ _ => rfl)
  have hT : q &&& not64 s = bits_to_mask (fun i => q.testBit i && !s.testBit i) 64 :=
    and_eq_bits_to_mask q (not64 s) _ hq (fun i hi => by rw [testBit_not64]; simp [hi])
  have hfour := four_way_split (fun i => q.testBit i) (fun i => s.testBit i)
    (fun i => xor (decide (c = 1)) (parity_upto q i)) 64
  beta_reduce at hfour
  rw [opening_quotes_eq c q hc hq, closing_quotes_eq c q hc hq, hL, hT] at hsum
  have hBDeq :
      bits_to_mask (fun i => q.testBit i && s.testBit i
          && !(xor (decide (c = 1)) (parity_upto q i))) 64
        = bits_to_mask (fun i => q.testBit i && !s.testBit i
          && xor (decide (c = 1)) (parity_upto q i)) 64 := by
    omega
  have hBD := bits_to_mask_eq_zero_of_eq (fun i => q.testBit i) (fun i => s.testBit i)
    (fun i => xor (decide (c = 1)) (parity_upto q i)) 64 hBDeq
  have hcheck : (q &&& s) &&& not64 (bitmask.prefix_xor (q ^^^ c))
      = bits_to_mask (fun i => (q &&& s).testBit i
          && !(xor (decide (c = 1)) (parity_upto q i))) 64 := by
    apply and_eq_bits_to_mask _ _ _ (lt_of_le_of_lt hLle hq)
    intro i hi
    rw [testBit_not64, testBit_prefix_xor, parity_upto_xor_carry q c hc]; simp [hi]
  rw [hcheck]
  simp only [Nat.testBit_and]
  exact hBD

/-- C14: for a carry-in `c` in {0,1}, a 64-bit quote mask `q` and any separator
mask `s`, the mask returned and the carry stored by `next_in_string` are the
parity reference (bit `i` = `c` XOR parity of bits `0..i` of `q`; carry = `c`
XOR parity of all 64 bits of `q`) iff `lead_quote & ~subtract_borrow(..)` is
zero, which is the condition under which the `prefix_xor` branch runs. -/
theorem reference_iff_lead_check_zero (self : json_string_scanner) (q s : Nat)
    (hc : self.still_in_string ≤ 1) (hq : q < 2 ^ 64) :
    ((self.next_in_string q s).1 = parity_reference self.still_in_string q ∧
      (self.next_in_string q s).2.still_in_string = carry_reference self.still_in_string q)
      ↔ self.lead_quote_in_string q s = 0 := by
  constructor
  · rintro ⟨hmask, hcarry⟩
    by_contra hne
    rw [next_in_string_of_ne_zero self q s hne] at hmask hcarry
    simp only at hmask hcarry
    rw [← prefix_xor_carry_eq_reference q _ hc] at hmask
    rw [← carry_reference_eq _ q hc] at hcarry
    have hpair : bitmask.subtract_borrow (q &&& not64 s) (q &&& s) self.still_in_string
        = (bitmask.prefix_xor (q ^^^ self.still_in_string),
           bitmask.prefix_xor (q ^^^ self.still_in_string) >>> 63) :=
      Prod.ext hmask hcarry
    have hz := lead_check_zero_of_subtract_eq self.still_in_string q s hc hq hpair
    apply hne
    unfold json_string_scanner.lead_quote_in_string
    simp only [hmask]
    exact hz
  · intro hz
    rw [next_in_string_of_zero self q s hz]
    exact ⟨prefix_xor_carry_eq_reference q _ hc, carry_reference_eq _ q hc⟩

/-- Witness for C14: on a fresh scanner the block `q = s = 0x12` has a non-zero
`lead_quote_in_string`, so its result is not the parity reference. -/
theorem reference_iff_lead_check_zero_witness :
    json_string_scanner.fresh.still_in_string ≤ 1 ∧ (0x12 : Nat) < 2 ^ 64 ∧
    ¬ ((json_string_scanner.fresh.next_in_string 0x12 0x12).1
          = parity_reference json_string_scanner.fresh.still_in_string 0x12 ∧
        (json_string_scanner.fresh.next_in_string 0x12 0x12).2.still_in_string
          = carry_reference json_string_scanner.fresh.still_in_string 0x12) :=
  ⟨by decide, by decide, fun h =>
    absurd
      ((reference_iff_lead_check_zero json_string_scanner.fresh 0x12 0x12
        (by decide) (by decide)).1 h)
      (by decide)⟩

/-! ## Blocks without lead quotes -/

theorem lead_quote_in_string_of_disjoint (self : json_string_scanner) (q s : Nat)
    (h : q &&& s = 0) : self.lead_quote_in_string q s = 0 := by
  unfold json_string_scanner.lead_quote_in_string
  simp only [h, Nat.zero_and]

theorem count_upto_succ (m i : Nat) :
    count_upto m (i + 1) = count_upto m i + (m.testBit (i + 1)).toNat := by
  unfold count_upto
  rw [List.range_succ, List.filter_append, List.length_append]
  cases h : m.testBit (i + 1) <;> simp [List.filter, h]

theorem parity_upto_eq_count (m i : Nat) :
    parity_upto m i = decide (count_upto m i % 2 = 1) := by
  induction i with
  | zero =>
    simp only [parity_upto]
    cases h : m.testBit 0 <;> simp [count_upto, List.range_succ, List.filter, h]
  | succ i ih =>
    simp only [parity_upto, count_upto_succ, ih]
    cases m.testBit (i + 1)
    · simp
    · by_cases hodd : count_upto m i % 2 = 1
      · have : ¬ (count_upto m i + 1) % 2 = 1 := by omega
        simp [hodd, this]
      · have : (count_upto m i + 1) % 2 = 1 := by omega
        simp [hodd, this]

theorem carry_reference_eq_mod (c q : Nat) (hc : c ≤ 1) :
    carry_reference c q = (c + popcount64 q) % 2 := by
  have hpop : popcount64 q = count_upto q 63 := rfl
  unfold carry_reference
  rw [parity_upto_eq_count, hpop]
  have h : c = 0 ∨ c = 1 := by omega
  rcases h with h | h <;> subst h
  · by_cases hodd : count_upto q 63 % 2 = 1
    · simp [hodd]
    · have : count_upto q 63 % 2 = 0 := by omega
      simp [this]
  · by_cases hodd : count_upto q 63 % 2 = 1
    · have : (1 + count_upto q 63) % 2 = 0 := by omega
      simp [hodd, this]
    · have : (1 + count_upto q 63) % 2 = 1 := by omega
      simp [hodd, this]

/-- Over blocks without lead quotes the carry is the parity of the number of
quote bits fed so far. -/
theorem feed_in_string_carry (blocks : List (Nat × Nat)) :
    ∀ (self : json_string_scanner), self.still_in_string ≤ 1 →
      (∀ b ∈ blocks, b.1 &&& b.2 = 0) →
      (self.feed_in_string blocks).still_in_string
        = (self.still_in_string + total_quotes blocks) % 2 := by
  induction blocks with
  | nil =>
    intro self hc _
    simp only [json_string_scanner.feed_in_string, total_quotes, List.map_nil, List.sum_nil]
    omega
  | cons b rest ih =>
    intro self hc hall
    have hb : b.1 &&& b.2 = 0 := hall b (List.mem_cons_self _ _)
    have hrest : ∀ x ∈ rest, x.1 &&& x.2 = 0 := fun x hx => hall x (List.mem_cons_of_mem _ hx)
    have hstep : (self.next_in_string b.1 b.2).2.still_in_string
        = (self.still_in_string + popcount64 b.1) % 2 := by
      rw [next_in_string_of_zero self b.1 b.2 (lead_quote_in_string_of_disjoint self b.1 b.2 hb)]
      show bitmask.prefix_xor (b.1 ^^^ self.still_in_string) >>> 63 = _
      rw [carry_reference_eq _ _ hc, carry_reference_eq_mod _ _ hc]
    have hle : (self.next_in_string b.1 b.2).2.still_in_string ≤ 1 := by
      rw [hstep]; omega
    simp only [json_string_scanner.feed_in_string]
    rw [ih _ hle hrest, hstep]
    have ht : total_quotes (b :: rest) = popcount64 b.1 + total_quotes rest := by
      simp [total_quotes]
    rw [ht]
    omega

/-- C15: for every sequence of blocks without lead quotes (`q & s = 0`, in
particular with an all-zero separator mask) fed to `next_in_string` on a fresh
scanner and every further such block `(q, s)`, the mask returned for that block
has bit `i` (for `i < 64`) equal to the parity of the number of quote bits in
the earlier blocks plus bits `0..i` of `q`, and the carry stored afterwards is
bit 63 of that mask. -/
theorem no_lead_quotes_is_prefix_xor_scanner (pre : List (Nat × Nat)) (q s : Nat)
    (hpre : ∀ b ∈ pre, b.1 &&& b.2 = 0) (hqs : q &&& s = 0) :
    (∀ i, i < 64 →
      ((json_string_scanner.fresh.feed_in_string pre).next_in_string q s).1.testBit i
        = decide ((total_quotes pre + count_upto q i) % 2 = 1)) ∧
    ((json_string_scanner.fresh.feed_in_string pre).next_in_string q s).2.still_in_string
      = (((json_string_scanner.fresh.feed_in_string pre).next_in_string q s).1.testBit
          63).toNat := by
  have hcarry := feed_in_string_carry pre json_string_scanner.fresh (by decide) hpre
  have hfresh : json_string_scanner.fresh.still_in_string = 0 := rfl
  rw [hfresh, Nat.zero_add] at hcarry
  have hle : (json_string_scanner.fresh.feed_in_string pre).still_in_string ≤ 1 := by
    rw [hcarry]; omega
  rw [next_in_string_of_zero _ q s (lead_quote_in_string_of_disjoint _ q s hqs)]
  refine ⟨?_, shiftRight_63_eq _ (prefix_xor_lt _)⟩
  intro i hi
  show (bitmask.prefix_xor (q ^^^ _)).testBit i = _
  rw [testBit_prefix_xor, parity_upto_xor_carry q _ hle, parity_upto_eq_count, hcarry]
  by_cases ht : total_quotes pre % 2 = 1
  · by_cases hcnt : count_upto q i % 2 = 1
    · have : ¬ (total_quotes pre + count_upto q i) % 2 = 1 := by omega
      simp [hi, ht, hcnt, this]
    · have : (total_quotes pre + count_upto q i) % 2 = 1 := by omega
      simp [hi, ht, hcnt, this]
  · by_cases hcnt : count_upto q i % 2 = 1
    · have : (total_quotes pre + count_upto q i) % 2 = 1 := by omega
      have ht0 : total_quotes pre % 2 = 0 := by omega
      simp [hi, ht0, hcnt, this]
    · have : ¬ (total_quotes pre + count_upto q i) % 2 = 1 := by omega
      have ht0 : total_quotes pre % 2 = 0 := by omega
      simp [hi, ht0, hcnt, this]

/-- Witness for C15: one block with a single quote at position 1, then a block
with a quote at position 4, both with an all-zero separator mask; the second
mask has bit 63 clear and the carry ends at 0. -/
theorem no_lead_quotes_is_prefix_xor_scanner_witness :
    (∀ b ∈ [((0x02 : Nat), (0 : Nat))], b.1 &&& b.2 = 0) ∧ (0x10 : Nat) &&& 0 = 0 ∧
    ((json_string_scanner.fresh.feed_in_string [(0x02, 0)]).next_in_string 0x10 0).2.still_in_string
      = (((json_string_scanner.fresh.feed_in_string [(0x02, 0)]).next_in_string 0x10 0).1.testBit
          63).toNat :=
  ⟨by decide, by decide,
    (no_lead_quotes_is_prefix_xor_scanner [(0x02, 0)] 0x10 0 (by decide) (by decide)).2⟩

/-! ## The two ordering queries together -/

theorem lowest_set_bit_unique (m p q : Nat) (hp : is_lowest_set_bit m p)
    (hq : is_lowest_set_bit m q) : p = q := by
  have h1 : ¬ p < q := by
    intro hlt
    have := hq.2 p hlt
    rw [hp.1] at this
    exact Bool.noConfusion this
  have h2 : ¬ q < p := by
    intro hlt
    have := hp.2 q hlt
    rw [hq.1] at this
    exact Bool.noConfusion this
  omega

theorem ne_zero_of_lowest (m p : Nat) (hp : is_lowest_set_bit m p) : m ≠ 0 := by
  intro h0
  have := hp.1
  rw [h0] at this
  simp at this

/-- For disjoint 32-bit masks with lowest set bits `p` (of `a`) and `q` (of `b`),
`(a - 1) & b` is non-zero iff `q < p`. -/
theorem pred_and_ne_zero_iff_lt (a b p q : Nat) (ha : a < 2 ^ 32) (hb : b < 2 ^ 32)
    (hdisj : a &&& b = 0) (hp : is_lowest_set_bit a p) (hq : is_lowest_set_bit b q) :
    ((a + 2 ^ 32 - 1) % 2 ^ 32) &&& b ≠ 0 ↔ q < p := by
  rw [pred_and_ne_zero_iff a b q ha hb hdisj hq]
  constructor
  · rintro (h0 | ⟨p', hp', hlt⟩)
    · exact absurd h0 (ne_zero_of_lowest a p hp)
    · rw [lowest_set_bit_unique a p p' hp hp']; exact hlt
  · intro hlt
    exact Or.inr ⟨p, hp, hlt⟩

theorem pred_and_zero_right (a : Nat) : ((a + 2 ^ 32 - 1) % 2 ^ 32) &&& 0 = 0 :=
  Nat.and_zero _

theorem pred_zero_and_ne_zero (b : Nat) (hb : b < 2 ^ 32) (hb0 : b ≠ 0) :
    ((0 + 2 ^ 32 - 1) % 2 ^ 32) &&& b ≠ 0 := by
  obtain ⟨q, hq⟩ := exists_lowest_set_bit b hb0
  exact (pred_and_ne_zero_iff 0 b q (by decide) hb (Nat.zero_and _) hq).2 (Or.inl rfl)

/-- C16: for 32-bit masks `bs_bits` and `quote_bits` with no common set bit,
`has_quote_first` and `has_backslash` are never both true, and they are both
false iff both masks are zero; so when either mask is non-zero exactly one of
the two queries is true. The masks returned by `copy_and_find` are such a pair. -/
theorem ordering_queries_exclusive (self : backslash_and_quote)
    (hbs : self.bs_bits < 2 ^ 32) (hq : self.quote_bits < 2 ^ 32)
    (hdisj : self.bs_bits &&& self.quote_bits = 0) :
    ¬ (self.has_quote_first = true ∧ self.has_backslash = true) ∧
    ((self.has_quote_first = false ∧ self.has_backslash = false)
      ↔ (self.bs_bits = 0 ∧ self.quote_bits = 0)) ∧
    (∀ (mem : memory) (src dst : Nat),
      (backslash_and_quote.copy_and_find mem src dst).1.bs_bits < 2 ^ 32 ∧
      (backslash_and_quote.copy_and_find mem src dst).1.quote_bits < 2 ^ 32 ∧
      (backslash_and_quote.copy_and_find mem src dst).1.bs_bits
        &&& (backslash_and_quote.copy_and_find mem src dst).1.quote_bits = 0) := by
  have hdisj' : self.quote_bits &&& self.bs_bits = 0 := by rw [Nat.and_comm]; exact hdisj
  have hqf : self.has_quote_first = true
      ↔ ((self.bs_bits + 2 ^ 32 - 1) % 2 ^ 32) &&& self.quote_bits ≠ 0 := by
    unfold backslash_and_quote.has_quote_first; exact bne_iff_ne
  have hb : self.has_backslash = true
      ↔ ((self.quote_bits + 2 ^ 32 - 1) % 2 ^ 32) &&& self.bs_bits ≠ 0 := by
    unfold backslash_and_quote.has_backslash; exact bne_iff_ne
  have hqf' : self.has_quote_first = false
      ↔ ¬ (((self.bs_bits + 2 ^ 32 - 1) % 2 ^ 32) &&& self.quote_bits ≠ 0) := by
    rw [← hqf]; simp
  have hb' : self.has_backslash = false
      ↔ ¬ (((self.quote_bits + 2 ^ 32 - 1) % 2 ^ 32) &&& self.bs_bits ≠ 0) := by
    rw [← hb]; simp
  refine ⟨?_, ?_, fun mem src dst =>
    ⟨copy_and_find_bs_lt mem src dst, copy_and_find_quote_lt mem src dst,
      copy_and_find_disjoint mem src dst⟩⟩
  · rw [hqf, hb]
    rintro ⟨h1, h2⟩
    by_cases hb0 : self.bs_bits = 0
    · exact h2 (by rw [hb0]; exact pred_and_zero_right _)
    · by_cases hq0 : self.quote_bits = 0
      · exact h1 (by rw [hq0]; exact pred_and_zero_right _)
      · obtain ⟨p, hp⟩ := exists_lowest_set_bit _ hb0
        obtain ⟨q, hq'⟩ := exists_lowest_set_bit _ hq0
        have l1 := (pred_and_ne_zero_iff_lt _ _ p q hbs hq hdisj hp hq').1 h1
        have l2 := (pred_and_ne_zero_iff_lt _ _ q p hq hbs hdisj' hq' hp).1 h2
        omega
  · rw [hqf', hb']
    constructor
    · rintro ⟨h1, h2⟩
      by_cases hb0 : self.bs_bits = 0
      · refine ⟨hb0, ?_⟩
        by_contra hq0
        apply h1
        rw [hb0]
        exact pred_zero_and_ne_zero _ hq hq0
      · exfalso
        by_cases hq0 : self.quote_bits = 0
        · apply h2
          rw [hq0]
          exact pred_zero_and_ne_zero _ hbs hb0
        · obtain ⟨p, hp⟩ := exists_lowest_set_bit _ hb0
          obtain ⟨q, hq'⟩ := exists_lowest_set_bit _ hq0
          have hne : p ≠ q := by
            intro hpq
            have : (self.bs_bits &&& self.quote_bits).testBit p = true := by
              rw [Nat.testBit_and, hp.1, hpq, hq'.1]; rfl
            rw [hdisj] at this
            simp at this
          have l1 := (pred_and_ne_zero_iff_lt _ _ p q hbs hq hdisj hp hq')
          have l2 := (pred_and_ne_zero_iff_lt _ _ q p hq hbs hdisj' hq' hp)
          by_cases hlt : q < p
          · exact h1 (l1.2 hlt)
          · exact h2 (l2.2 (by omega))
    · rintro ⟨hb0, hq0⟩
      rw [hb0, hq0]
      exact ⟨fun h => h (Nat.and_zero _), fun h => h (Nat.and_zero _)⟩

/-- Witness for C16: the masks of a block with a quote at position 3 and a
backslash at position 5. -/
theorem ordering_queries_exclusive_witness :
    (0x20 : Nat) < 2 ^ 32 ∧ (0x08 : Nat) < 2 ^ 32 ∧ (0x20 : Nat) &&& 0x08 = 0 ∧
    ¬ (backslash_and_quote.has_quote_first { bs_bits := 0x20, quote_bits := 0x08 } = true ∧
       backslash_and_quote.has_backslash { bs_bits := 0x20, quote_bits := 0x08 } = true) :=
  ⟨by decide, by decide, by decide,
    (ordering_queries_exclusive { bs_bits := 0x20, quote_bits := 0x08 }
      (by decide) (by decide) (by decide)).1⟩

/-! ## Index of the first quote or backslash -/

theorem lowest_set_from_spec (m : Nat) :
    ∀ (fuel i : Nat), (∀ j, j < i → m.testBit j = false) →
      (∀ j, j < bitmask.lowest_set_from m fuel i → m.testBit j = false) ∧
      (bitmask.lowest_set_from m fuel i < i + fuel →
        m.testBit (bitmask.lowest_set_from m fuel i) = true) ∧
      bitmask.lowest_set_from m fuel i ≤ i + fuel := by
  intro fuel
  induction fuel with
  | zero =>
    intro i hbelow
    simp only [bitmask.lowest_set_from]
    exact ⟨hbelow, fun h => absurd h (by omega), by omega⟩
  | succ fuel ih =>
    intro i hbelow
    simp only [bitmask.lowest_set_from]
    by_cases hbit : m.testBit i = true
    · rw [if_pos hbit]
      exact ⟨hbelow, fun _ => hbit, by omega⟩
    · rw [if_neg hbit]
      have hbelow' : ∀ j, j < i + 1 → m.testBit j = false := by
        intro j hj
        by_cases hji : j = i
        · subst hji; simpa using hbit
        · exact hbelow j (by omega)
      obtain ⟨h1, h2, h3⟩ := ih (i + 1) hbelow'
      exact ⟨h1, fun h => h2 (by omega), by omega⟩

/-- On a non-zero 64-bit word `trailing_zeroes` is the lowest set bit. -/
theorem trailing_zeroes_is_lowest (m : Nat) (hm0 : m ≠ 0) (hm : m < 2 ^ 64) :
    is_lowest_set_bit m (bitmask.trailing_zeroes m) := by
  obtain ⟨h1, h2, h3⟩ := lowest_set_from_spec m 64 0 (fun j hj => absurd hj (by omega))
  refine ⟨?_, h1⟩
  by_cases hlt : bitmask.lowest_set_from m 64 0 < 0 + 64
  · exact h2 hlt
  · exfalso
    apply hm0
    apply Nat.eq_of_testBit_eq
    intro j
    rw [Nat.zero_testBit]
    by_cases hj : j < 64
    · exact h1 j (by omega)
    · exact Nat.testBit_lt_two_pow
        (lt_of_lt_of_le hm (Nat.pow_le_pow_right (by decide) (by omega)))

/-- When `(a - 1) & b` is non-zero for disjoint 32-bit masks, the index
`trailing_zeroes b` is the lowest set bit of `b` and `a` has no bit below it. -/
theorem first_index_spec (a b : Nat) (ha : a < 2 ^ 32) (hb : b < 2 ^ 32)
    (hdisj : a &&& b = 0) (h : ((a + 2 ^ 32 - 1) % 2 ^ 32) &&& b ≠ 0) :
    is_lowest_set_bit b (bitmask.trailing_zeroes b) ∧
    ∀ j, j < bitmask.trailing_zeroes b → a.testBit j = false := by
  have hb0 : b ≠ 0 := by
    intro h0
    apply h
    rw [h0]
    exact Nat.and_zero _
  have hlow := trailing_zeroes_is_lowest b hb0
    (lt_of_lt_of_le hb (Nat.pow_le_pow_right (by decide) (by decide)))
  refine ⟨hlow, ?_⟩
  intro j hj
  rcases (pred_and_ne_zero_iff a b _ ha hb hdisj hlow).1 h with h0 | ⟨p, hp, hlt⟩
  · rw [h0]; exact Nat.zero_testBit j
  · exact hp.2 j (by omega)

/-- C17: for every block, if `has_quote_first` is true on the result of
`copy_and_find` then `n = quote_index()` satisfies `n < 32`, the byte at
`src + n` is the quote, and no byte before position `n` is a quote or a
backslash, the destination holding those bytes; symmetrically, if
`has_backslash` is true then `m = backslash_index()` satisfies `m < 32`, the
byte at `src + m` is the backslash and no byte before `m` is a quote or a
backslash. -/
theorem first_index_points_at_first_special (mem : memory) (src dst : Nat) :
    ((backslash_and_quote.copy_and_find mem src dst).1.has_quote_first = true →
      (backslash_and_quote.copy_and_find mem src dst).1.quote_index < 32 ∧
      mem (src + (backslash_and_quote.copy_and_find mem src dst).1.quote_index) = 0x22 ∧
      ∀ j, j < (backslash_and_quote.copy_and_find mem src dst).1.quote_index →
        mem (src + j) ≠ 0x22 ∧ mem (src + j) ≠ 0x5C ∧
        (backslash_and_quote.copy_and_find mem src dst).2 (dst + j) = mem (src + j)) ∧
    ((backslash_and_quote.copy_and_find mem src dst).1.has_backslash = true →
      (backslash_and_quote.copy_and_find mem src dst).1.backslash_index < 32 ∧
      mem (src + (backslash_and_quote.copy_and_find mem src dst).1.backslash_index) = 0x5C ∧
      ∀ j, j < (backslash_and_quote.copy_and_find mem src dst).1.backslash_index →
        mem (src + j) ≠ 0x22 ∧ mem (src + j) ≠ 0x5C ∧
        (backslash_and_quote.copy_and_find mem src dst).2 (dst + j) = mem (src + j)) := by
  have hbs := copy_and_find_bs_lt mem src dst
  have hq := copy_and_find_quote_lt mem src dst
  have hdisj := copy_and_find_disjoint mem src dst
  have hdisj' : (backslash_and_quote.copy_and_find mem src dst).1.quote_bits
      &&& (backslash_and_quote.copy_and_find mem src dst).1.bs_bits = 0 := by
    rw [Nat.and_comm]; exact hdisj
  constructor
  · intro h
    have hne : (((backslash_and_quote.copy_and_find mem src dst).1.bs_bits + 2 ^ 32 - 1) % 2 ^ 32)
        &&& (backslash_and_quote.copy_and_find mem src dst).1.quote_bits ≠ 0 := bne_iff_ne.1 h
    obtain ⟨hlow, hbelow⟩ := first_index_spec _ _ hbs hq hdisj hne
    have hbit := hlow.1
    rw [testBit_copy_and_find_quote] at hbit
    simp only [Bool.and_eq_true, decide_eq_true_eq] at hbit
    refine ⟨hbit.1, hbit.2, ?_⟩
    intro j hj
    have hj32 : j < 32 := lt_trans hj hbit.1
    have hqj := hlow.2 j hj
    have hbj := hbelow j hj
    rw [testBit_copy_and_find_quote] at hqj
    rw [testBit_copy_and_find_bs] at hbj
    simp only [hj32, decide_True, Bool.true_and, decide_eq_false_iff_not] at hqj hbj
    exact ⟨hqj, hbj, copy_and_find_dst mem src dst j hj32⟩
  · intro h
    have hne : (((backslash_and_quote.copy_and_find mem src dst).1.quote_bits + 2 ^ 32 - 1)
        % 2 ^ 32) &&& (backslash_and_quote.copy_and_find mem src dst).1.bs_bits ≠ 0 :=
      bne_iff_ne.1 h
    obtain ⟨hlow, hbelow⟩ := first_index_spec _ _ hq hbs hdisj' hne
    have hbit := hlow.1
    rw [testBit_copy_and_find_bs] at hbit
    simp only [Bool.and_eq_true, decide_eq_true_eq] at hbit
    refine ⟨hbit.1, hbit.2, ?_⟩
    intro j hj
    have hj32 : j < 32 := lt_trans hj hbit.1
    have hbj := hlow.2 j hj
    have hqj := hbelow j hj
    rw [testBit_copy_and_find_quote] at hqj
    rw [testBit_copy_and_find_bs] at hbj
    simp only [hj32, decide_True, Bool.true_and, decide_eq_false_iff_not] at hqj hbj
    exact ⟨hqj, hbj, copy_and_find_dst mem src dst j hj32⟩

/-- Witness for C17: a block with a quote at position 3 and a backslash at
position 5; `has_quote_first` is true and `quote_index` is 3. -/
theorem first_index_points_at_first_special_witness :
    (backslash_and_quote.copy_and_find
        (fun a => if a = 3 then 0x22 else if a = 5 then 0x5C else 0x61) 0 64).1.has_quote_first
      = true ∧
    (backslash_and_quote.copy_and_find
        (fun a => if a = 3 then 0x22 else if a = 5 then 0x5C else 0x61) 0 64).1.quote_index = 3 ∧
    (backslash_and_quote.copy_and_find
        (fun a => if a = 3 then 0x22 else if a = 5 then 0x5C else 0x61) 0 64).1.quote_index
      < 32 :=
  ⟨by decide, by decide,
    ((first_index_points_at_first_special
      (fun a => if a = 3 then 0x22 else if a = 5 then 0x5C else 0x61) 0 64).1 (by decide)).1⟩
